import Mathlib

/-!
Verification of the nestle nested-sampling library's specification.

The repository ships its test suite (`runtests.py`); the library module
`nestle.py` itself is not among the staged source files, so every operation
below is modelled from the specification's own description of the data model
and algorithms (each such definition carries a doc comment starting
`Modelled from the spec:`).  Floating-point numbers are modelled as real
numbers (exact arithmetic); where no transcendental function is involved the
model uses rational numbers so that it stays executable.
-/

namespace Nestle

/-! ## Volume prefactor (unit n-ball volume) -/

/-- Modelled from the spec: `nestle.vol_prefactor(n)`, the volume of the unit
n-ball, computed by the closed-form recurrence alternating between the even-
and odd-dimension formulas: each step multiplies by `2*pi/n`. -/
noncomputable def vol_prefactor : ℕ → ℝ
  | 0 => 1
  | 1 => 2
  | (n + 2) => vol_prefactor n * (2 * Real.pi / ((n : ℝ) + 2))

lemma vol_prefactor_pos : ∀ n, 0 < vol_prefactor n := by
  intro n
  induction n using Nat.strong_induction_on with
  | _ n ih =>
    match n with
    | 0 => norm_num [vol_prefactor]
    | 1 => norm_num [vol_prefactor]
    | (m + 2) =>
      have h1 : 0 < vol_prefactor m := ih m (by omega)
      have h2 : 0 < 2 * Real.pi / ((m : ℝ) + 2) := by
        apply div_pos (by positivity)
        positivity
      simpa [vol_prefactor] using mul_pos h1 h2

/-- The closed form of the unit n-ball volume in terms of the Gamma function. -/
lemma vol_prefactor_eq_gamma :
    ∀ n : ℕ, vol_prefactor n = Real.pi ^ ((n : ℝ) / 2) / Real.Gamma ((n : ℝ) / 2 + 1) := by
  intro n
  induction n using Nat.strong_induction_on with
  | _ n ih =>
    match n with
    | 0 => simp [vol_prefactor, Real.Gamma_one]
    | 1 =>
      have hg : Real.Gamma ((1 : ℝ) / 2 + 1) = (1 / 2) * Real.sqrt Real.pi := by
        rw [Real.Gamma_add_one (by norm_num), Real.Gamma_one_half_eq]
      have hs : Real.pi ^ ((1 : ℝ) / 2) = Real.sqrt Real.pi := by
        rw [Real.sqrt_eq_rpow]
      have hpos : (0 : ℝ) < Real.sqrt Real.pi := Real.sqrt_pos.2 Real.pi_pos
      rw [show ((1 : ℕ) : ℝ) = (1 : ℝ) by norm_num, hg, hs, vol_prefactor]
      field_simp
    | (m + 2) =>
      have ihm := ih m (by omega)
      have hc : ((m + 2 : ℕ) : ℝ) / 2 = (m : ℝ) / 2 + 1 := by push_cast; ring
      have hgpos : 0 < Real.Gamma ((m : ℝ) / 2 + 1) := Real.Gamma_pos_of_pos (by positivity)
      have hg : Real.Gamma ((m : ℝ) / 2 + 1 + 1) = ((m : ℝ) / 2 + 1) * Real.Gamma ((m : ℝ) / 2 + 1) :=
        Real.Gamma_add_one (by positivity)
      have hp : Real.pi ^ ((m : ℝ) / 2 + 1) = Real.pi ^ ((m : ℝ) / 2) * Real.pi := by
        rw [Real.rpow_add Real.pi_pos, Real.rpow_one]
      rw [vol_prefactor, ihm, hc, hg, hp]
      have hne : Real.Gamma ((m : ℝ) / 2 + 1) ≠ 0 := ne_of_gt hgpos
      have hm2 : ((m : ℝ) + 2) ≠ 0 := by positivity
      field_simp
      ring

/-! ## Ellipsoid -/

/-- Modelled from the spec: the geometric primitive, a center vector together
with a symmetric positive-definite precision matrix `a` defining the quadratic
form `(x-center)^t A (x-center) <= 1`. -/
structure Ellipsoid (n : ℕ) where
  ctr : Fin n → ℝ
  a : Matrix (Fin n) (Fin n) ℝ

namespace Ellipsoid

variable {n : ℕ}

/-- Modelled from the spec: the quadratic form `(x-ctr)^t a (x-ctr)`. -/
def qform (e : Ellipsoid n) (x : Fin n → ℝ) : ℝ :=
  Matrix.dotProduct (x - e.ctr) (e.a.mulVec (x - e.ctr))

/-- Modelled from the spec: `contains(point)` is true iff the quadratic form
is at most 1. -/
def contains (e : Ellipsoid n) (x : Fin n → ℝ) : Prop := e.qform x ≤ 1

/-- Modelled from the spec: `volume() = prefactor(n) * det(A)^(-1/2)`. -/
noncomputable def vol (e : Ellipsoid n) : ℝ := vol_prefactor n / Real.sqrt e.a.det

/-- Modelled from the spec: `scale_to_volume(target)` rescales `a` uniformly by
the linear factor `f = (target/current_vol)^(1/n)`, multiplying `a` by `f^(-2)`,
so that the new volume equals the target; the center is unchanged. -/
noncomputable def scale_to_vol (e : Ellipsoid n) (v : ℝ) : Ellipsoid n :=
  { ctr := e.ctr
    a := (((v / e.vol) ^ ((n : ℝ)⁻¹)) ^ (2 : ℕ))⁻¹ • e.a }

end Ellipsoid

/-- Modelled from the spec: an eigendecomposition of the precision matrix as
produced by `numpy.linalg.eigh`: eigenvalues `l` and an orthogonal matrix `v`
of eigenvectors with `v * diag(l) * v^T = a`. -/
def IsEigh {n : ℕ} (a : Matrix (Fin n) (Fin n) ℝ) (l : Fin n → ℝ)
    (v : Matrix (Fin n) (Fin n) ℝ) : Prop :=
  v * Matrix.diagonal l * v.transpose = a ∧ v.transpose * v = 1

/-- Modelled from the spec: the principal axis lengths derived from the
eigenvalues of the precision matrix, `1/sqrt(eigenvalue)` each. -/
noncomputable def axlensOf {n : ℕ} (l : Fin n → ℝ) : Fin n → ℝ :=
  fun i => 1 / Real.sqrt (l i)

lemma diagonal_const_smul_one (n : ℕ) (c : ℝ) :
    Matrix.diagonal (fun _ : Fin n => c) = c • (1 : Matrix (Fin n) (Fin n) ℝ) := by
  ext i j
  by_cases h : i = j
  · subst h; simp
  · simp [Matrix.diagonal_apply_ne _ h, Matrix.one_apply_ne h]

lemma sqrt_pow_comm (c : ℝ) (hc : 0 ≤ c) (n : ℕ) :
    Real.sqrt (c ^ n) = Real.sqrt c ^ n := by
  induction n with
  | zero => simp
  | succ k ih => rw [pow_succ, Real.sqrt_mul (by positivity), ih, pow_succ]

/-- The volume of an ellipsoid whose precision matrix is scaled by a positive
factor `c`: determinant gains `c^n`, volume gains `(sqrt c)^(-n)`. -/
lemma Ellipsoid.vol_smul {n : ℕ} (e : Ellipsoid n) (c : ℝ) (hc : 0 < c) :
    (Ellipsoid.mk e.ctr (c • e.a)).vol = e.vol / Real.sqrt c ^ n := by
  unfold Ellipsoid.vol
  rw [Matrix.det_smul, Fintype.card_fin, Real.sqrt_mul (by positivity),
    sqrt_pow_comm c hc.le, div_div, mul_comm]

lemma Ellipsoid.vol_pos {n : ℕ} (e : Ellipsoid n) (hdet : 0 < e.a.det) : 0 < e.vol :=
  div_pos (vol_prefactor_pos n) (Real.sqrt_pos.2 hdet)

lemma Ellipsoid.vol_eq_of_a_eq {n : ℕ} {e1 e2 : Ellipsoid n} (h : e1.a = e2.a) :
    e1.vol = e2.vol := by
  unfold Ellipsoid.vol
  rw [h]

lemma rpow_natCast_inv_self (s : ℝ) (hs : 0 < s) (n : ℕ) (hn : 0 < n) :
    ((s ^ n : ℝ) ^ ((n : ℝ)⁻¹)) = s := by
  rw [← Real.rpow_natCast s n, ← Real.rpow_mul hs.le,
    mul_inv_cancel₀ (by exact_mod_cast hn.ne' : ((n : ℝ)) ≠ 0), Real.rpow_one]

/-- The linear scaling factor used by `scale_to_vol` at target `e.vol * s^n`
is exactly `s`, so the precision matrix is divided by `s^2`. -/
lemma Ellipsoid.scale_to_vol_a {n : ℕ} (e : Ellipsoid n) (s : ℝ)
    (hn : 0 < n) (hs : 0 < s) (hdet : 0 < e.a.det) :
    (e.scale_to_vol (e.vol * s ^ n)).a = (s ^ 2)⁻¹ • e.a := by
  have hV : 0 < e.vol := e.vol_pos hdet
  unfold Ellipsoid.scale_to_vol
  have h1 : e.vol * s ^ n / e.vol = s ^ n := by
    field_simp
  rw [h1, rpow_natCast_inv_self s hs n hn]

/-- `scale_to_vol` reaches its target volume exactly. -/
lemma Ellipsoid.scale_to_vol_vol {n : ℕ} (e : Ellipsoid n) (t : ℝ)
    (hn : 0 < n) (hdet : 0 < e.a.det) (ht : 0 < t) :
    (e.scale_to_vol t).vol = t := by
  have hV : 0 < e.vol := e.vol_pos hdet
  have hf : 0 < (t / e.vol) ^ ((n : ℝ)⁻¹) := Real.rpow_pos_of_pos (div_pos ht hV) _
  set f := (t / e.vol) ^ ((n : ℝ)⁻¹) with hfdef
  have hc : 0 < ((f ^ (2 : ℕ))⁻¹ : ℝ) := by positivity
  have := Ellipsoid.vol_smul e ((f ^ (2 : ℕ))⁻¹) hc
  unfold Ellipsoid.scale_to_vol
  rw [show (Ellipsoid.mk e.ctr ((f ^ (2 : ℕ))⁻¹ • e.a)) =
      (Ellipsoid.mk e.ctr ((f ^ (2 : ℕ))⁻¹ • (Ellipsoid.mk e.ctr e.a).a)) from rfl] at this ⊢
  rw [this]
  have hsq : Real.sqrt ((f ^ (2 : ℕ))⁻¹) = f⁻¹ := by
    rw [Real.sqrt_inv, Real.sqrt_sq hf.le]
  have hfn : f ^ n = t / e.vol := by
    rw [hfdef, ← Real.rpow_natCast ((t / e.vol) ^ ((n : ℝ)⁻¹)) n,
      ← Real.rpow_mul (div_pos ht hV).le,
      inv_mul_cancel₀ (by exact_mod_cast hn.ne' : ((n : ℝ)) ≠ 0), Real.rpow_one]
  have hea : (Ellipsoid.mk e.ctr e.a).vol = e.vol := rfl
  rw [hsq, hea, inv_pow, hfn]
  rw [inv_div, div_div_eq_mul_div, mul_comm, mul_div_assoc, div_self hV.ne', mul_one]

/-- C5: for every dimension `n >= 1` and every ellipsoid with positive-definite
precision matrix `a` (expressed through `0 < det a`), scaling the ellipsoid so
its volume becomes `scale^n` times its current volume produces exactly the
ellipsoid constructed directly with precision matrix `a/scale^2` and the same
center: matrices, centers and volumes agree, every eigendecomposition of `a`
transports to one of the scaled matrix with the same eigenvector directions,
and each axis length is multiplied by `scale`. -/
theorem C5_scale_to_vol_eq (n : ℕ) (e : Ellipsoid n) (s : ℝ)
    (hn : 0 < n) (hs : 0 < s) (hdet : 0 < e.a.det) :
    (e.scale_to_vol (e.vol * s ^ n)).a = (s ^ 2)⁻¹ • e.a ∧
    (e.scale_to_vol (e.vol * s ^ n)).ctr = e.ctr ∧
    (e.scale_to_vol (e.vol * s ^ n)).vol = (Ellipsoid.mk e.ctr ((s ^ 2)⁻¹ • e.a)).vol ∧
    (∀ l v, IsEigh e.a l v →
      IsEigh (e.scale_to_vol (e.vol * s ^ n)).a (fun i => (s ^ 2)⁻¹ * l i) v ∧
      ∀ i, axlensOf (fun j => (s ^ 2)⁻¹ * l j) i = s * axlensOf l i) := by
  have ha := Ellipsoid.scale_to_vol_a e s hn hs hdet
  refine ⟨ha, rfl, ?_, ?_⟩
  · exact Ellipsoid.vol_eq_of_a_eq ha
  · rintro l v ⟨hvdv, horth⟩
    have hsmul : (fun i => (s ^ 2)⁻¹ * l i) = ((s ^ 2)⁻¹ • l) := rfl
    constructor
    · constructor
      · rw [hsmul, Matrix.diagonal_smul, Matrix.mul_smul, Matrix.smul_mul, hvdv, ha]
      · exact horth
    · intro i
      unfold axlensOf
      rw [Real.sqrt_mul (by positivity) (l i), Real.sqrt_inv, Real.sqrt_sq hs.le]
      rw [one_div, one_div, mul_inv_rev, inv_inv, mul_comm]

/-- Witness for C5 at the concrete input `n = 1`, `e = (0, [[1]])`, `scale = 2`. -/
theorem C5_scale_to_vol_eq_witness :
    ((⟨![0], 1⟩ : Ellipsoid 1).scale_to_vol
        ((⟨![0], 1⟩ : Ellipsoid 1).vol * (2 : ℝ) ^ 1)).a
      = (((2 : ℝ) ^ 2)⁻¹ • (⟨![0], 1⟩ : Ellipsoid 1).a) :=
  (C5_scale_to_vol_eq 1 ⟨![0], 1⟩ 2 (by norm_num) (by norm_num)
    (by rw [Matrix.det_one]; norm_num)).1

/-- C7: the volume prefactor agrees with the closed-form unit n-ball volume
for every dimension (stated through the Gamma-function closed form, with the
spot values of the tests proved exactly), and an ellipsoid with precision
matrix `I/scale^2` has volume `vol_prefactor(n) * scale^n` with every axis
length equal to `scale` (through the evident eigendecomposition). -/
theorem C7_vol_prefactor_and_sphere (n : ℕ) (s : ℝ) (ctr : Fin n → ℝ)
    (hn : 0 < n) (hs : 0 < s) :
    vol_prefactor 1 = 2 ∧ vol_prefactor 2 = Real.pi ∧
    vol_prefactor 3 = 4 / 3 * Real.pi ∧ vol_prefactor 4 = Real.pi ^ 2 / 2 ∧
    vol_prefactor 5 = 8 / 15 * Real.pi ^ 2 ∧ vol_prefactor 9 = 32 / 945 * Real.pi ^ 4 ∧
    (∀ m : ℕ, vol_prefactor m = Real.pi ^ ((m : ℝ) / 2) / Real.Gamma ((m : ℝ) / 2 + 1)) ∧
    (Ellipsoid.mk ctr ((s ^ 2)⁻¹ • (1 : Matrix (Fin n) (Fin n) ℝ))).vol
      = vol_prefactor n * s ^ n ∧
    IsEigh ((s ^ 2)⁻¹ • (1 : Matrix (Fin n) (Fin n) ℝ)) (fun _ => (s ^ 2)⁻¹) 1 ∧
    (∀ i : Fin n, axlensOf (fun _ : Fin n => (s ^ 2)⁻¹) i = s) := by
  have hsqinv : Real.sqrt ((s ^ 2)⁻¹) = s⁻¹ := by
    rw [Real.sqrt_inv, Real.sqrt_sq hs.le]
  refine ⟨rfl, ?_, ?_, ?_, ?_, ?_, vol_prefactor_eq_gamma, ?_, ?_, ?_⟩
  · show vol_prefactor 0 * (2 * Real.pi / ((0 : ℕ) + 2)) = Real.pi
    norm_num [vol_prefactor]
  · show vol_prefactor 1 * (2 * Real.pi / ((1 : ℕ) + 2)) = 4 / 3 * Real.pi
    norm_num [vol_prefactor]
    ring
  · show vol_prefactor 2 * (2 * Real.pi / ((2 : ℕ) + 2)) = Real.pi ^ 2 / 2
    norm_num [vol_prefactor]
    ring
  · show vol_prefactor 3 * (2 * Real.pi / ((3 : ℕ) + 2)) = 8 / 15 * Real.pi ^ 2
    norm_num [vol_prefactor]
    ring
  · show vol_prefactor 7 * (2 * Real.pi / ((7 : ℕ) + 2)) = 32 / 945 * Real.pi ^ 4
    norm_num [vol_prefactor]
    ring
  · have h1 : (Ellipsoid.mk ctr (1 : Matrix (Fin n) (Fin n) ℝ)).vol = vol_prefactor n := by
      unfold Ellipsoid.vol
      rw [Matrix.det_one, Real.sqrt_one, div_one]
    have := Ellipsoid.vol_smul (Ellipsoid.mk ctr (1 : Matrix (Fin n) (Fin n) ℝ))
      ((s ^ 2)⁻¹) (by positivity)
    rw [h1, hsqinv] at this
    rw [this, inv_pow, div_eq_mul_inv, inv_inv]
  · constructor
    · rw [diagonal_const_smul_one, Matrix.transpose_one, Matrix.one_mul, Matrix.mul_one]
    · rw [Matrix.transpose_one, Matrix.one_mul]
  · intro i
    unfold axlensOf
    rw [hsqinv, one_div, inv_inv]

/-- Witness for C7 at the concrete input `n = 1`, `scale = 1`: the unit
1-ellipsoid built from `I/1` has volume `vol_prefactor 1 * 1`. -/
theorem C7_vol_prefactor_and_sphere_witness :
    (Ellipsoid.mk ![(0 : ℝ)] (((1 : ℝ) ^ 2)⁻¹ • (1 : Matrix (Fin 1) (Fin 1) ℝ))).vol
      = vol_prefactor 1 * (1 : ℝ) ^ 1 :=
  (C7_vol_prefactor_and_sphere 1 1 ![(0 : ℝ)] (by norm_num)
    (by norm_num)).2.2.2.2.2.2.2.1

lemma qform_one_const (n : ℕ) (c : ℝ) :
    (Ellipsoid.mk (0 : Fin n → ℝ) (1 : Matrix (Fin n) (Fin n) ℝ)).qform (fun _ => c)
      = n * c ^ 2 := by
  unfold Ellipsoid.qform
  rw [sub_zero, Matrix.one_mulVec]
  simp only [Matrix.dotProduct, Finset.sum_const, Finset.card_univ, Fintype.card_fin,
    nsmul_eq_mul]
  ring

lemma qform_diagonal_single (n : ℕ) (d : Fin n → ℝ) (i : Fin n) (c : ℝ) :
    (Ellipsoid.mk (0 : Fin n → ℝ) (Matrix.diagonal d)).qform
        (fun j => if j = i then c else 0) = d i * c ^ 2 := by
  unfold Ellipsoid.qform
  rw [sub_zero]
  simp only [Matrix.dotProduct, Matrix.mulVec_diagonal]
  rw [Finset.sum_eq_single i]
  · simp only [eq_self_iff_true, if_true]
    ring
  · intro b _ hb
    simp [if_neg hb]
  · intro h
    exact absurd (Finset.mem_univ i) h

lemma axlensOf_pos {n : ℕ} (d : Fin n → ℝ) (i : Fin n) (hd : 0 < d i) :
    0 < axlensOf d i := by
  unfold axlensOf
  positivity

lemma mul_axlensOf_sq {n : ℕ} (d : Fin n → ℝ) (i : Fin n) (hd : 0 < d i) :
    d i * axlensOf d i ^ 2 = 1 := by
  unfold axlensOf
  rw [div_pow, one_pow, Real.sq_sqrt hd.le, mul_one_div_cancel hd.ne']

/-- C6 counterexample: the claim as stated fails.  In dimension 1 (within the
claimed range 1..20) the axis-aligned ellipsoid with diagonal entry `10^16`
has axis length `10^-8 < 1e-7`, and the point at distance
`axis_length - 1e-7` along that axis is NOT contained, while the claim
asserts it is classified inside. -/
theorem C6_contains_cex :
    (1 : ℕ) ≤ 20 ∧ (0 : ℝ) < 10 ^ 16 ∧
    axlensOf (fun _ : Fin 1 => (10 : ℝ) ^ 16) 0 = 1 / 10 ^ 8 ∧
    ¬ (Ellipsoid.mk (0 : Fin 1 → ℝ) (Matrix.diagonal fun _ => (10 : ℝ) ^ 16)).contains
        (fun j => if j = 0 then axlensOf (fun _ : Fin 1 => (10 : ℝ) ^ 16) 0 - 1e-7 else 0) := by
  have hax : axlensOf (fun _ : Fin 1 => (10 : ℝ) ^ 16) 0 = 1 / 10 ^ 8 := by
    unfold axlensOf
    rw [show ((10 : ℝ) ^ 16) = ((10 : ℝ) ^ 8) ^ 2 by norm_num,
      Real.sqrt_sq (by norm_num : (0 : ℝ) ≤ 10 ^ 8)]
  refine ⟨by norm_num, by norm_num, hax, ?_⟩
  unfold Ellipsoid.contains
  rw [qform_diagonal_single 1 (fun _ => (10 : ℝ) ^ 16) 0
    (axlensOf (fun _ : Fin 1 => (10 : ℝ) ^ 16) 0 - 1e-7), hax]
  norm_num

/-- C6 (amended): `contains` holds exactly when the quadratic form is at most
1; for the unit n-sphere in dimensions 1..20 the point with all coordinates
`1/sqrt(n) + eps` is classified outside and the one with `1/sqrt(n) - eps`
inside; and for an axis-aligned ellipsoid the point at `axis_length + eps`
along an axis is outside while — provided `eps` is less than twice that axis
length, the restriction the counterexample forces — the point at
`axis_length - eps` is inside (`eps = 1e-7`). -/
theorem C6_contains_amended (n : ℕ) (e : Ellipsoid n) (x : Fin n → ℝ)
    (d : Fin n → ℝ) (i : Fin n) (hn1 : 1 ≤ n) (hn20 : n ≤ 20)
    (hd : ∀ j, 0 < d j) :
    (e.contains x ↔ e.qform x ≤ 1) ∧
    ¬ (Ellipsoid.mk (0 : Fin n → ℝ) 1).contains (fun _ => 1 / Real.sqrt n + 1e-7) ∧
    (Ellipsoid.mk (0 : Fin n → ℝ) 1).contains (fun _ => 1 / Real.sqrt n - 1e-7) ∧
    ¬ (Ellipsoid.mk (0 : Fin n → ℝ) (Matrix.diagonal d)).contains
        (fun j => if j = i then axlensOf d i + 1e-7 else 0) ∧
    ((1e-7 : ℝ) < 2 * axlensOf d i →
      (Ellipsoid.mk (0 : Fin n → ℝ) (Matrix.diagonal d)).contains
        (fun j => if j = i then axlensOf d i - 1e-7 else 0)) := by
  have hnR : (0 : ℝ) < n := by exact_mod_cast hn1
  have ht : 0 < Real.sqrt n := Real.sqrt_pos.2 hnR
  have htsq : Real.sqrt n ^ 2 = n := Real.sq_sqrt hnR.le
  have hone : (n : ℝ) * (1 / Real.sqrt n) ^ 2 = 1 := by
    rw [div_pow, one_pow, htsq, mul_one_div_cancel hnR.ne']
  have ht5 : Real.sqrt n ≤ 5 := by
    have h25 : (5 : ℝ) = Real.sqrt 25 := by
      rw [show (25 : ℝ) = 5 ^ 2 by norm_num, Real.sqrt_sq (by norm_num : (0 : ℝ) ≤ 5)]
    rw [h25]
    exact Real.sqrt_le_sqrt (by exact_mod_cast Nat.le_trans hn20 (by norm_num))
  have heps : (1e-7 : ℝ) < 2 / Real.sqrt n := by
    have h1 : (2 : ℝ) / 5 ≤ 2 / Real.sqrt n := by gcongr
    nlinarith
  have hai : 0 < axlensOf d i := axlensOf_pos d i (hd i)
  have hki : d i * axlensOf d i ^ 2 = 1 := mul_axlensOf_sq d i (hd i)
  refine ⟨Iff.rfl, ?_, ?_, ?_, ?_⟩
  · unfold Ellipsoid.contains
    rw [qform_one_const, not_le]
    have hsq : (1 / Real.sqrt n) ^ 2 < (1 / Real.sqrt n + 1e-7) ^ 2 := by
      have h0 : (0 : ℝ) ≤ 1 / Real.sqrt n := by positivity
      nlinarith
    calc (1 : ℝ) = n * (1 / Real.sqrt n) ^ 2 := hone.symm
      _ < n * (1 / Real.sqrt n + 1e-7) ^ 2 := by
          exact mul_lt_mul_of_pos_left hsq hnR
  · unfold Ellipsoid.contains
    rw [qform_one_const]
    have hsq : (1 / Real.sqrt n - 1e-7) ^ 2 < (1 / Real.sqrt n) ^ 2 := by
      have h2 : (1e-7 : ℝ) < 2 * (1 / Real.sqrt n) := by
        rw [mul_one_div]
        nlinarith
      nlinarith
    refine le_of_lt ?_
    calc (n : ℝ) * (1 / Real.sqrt n - 1e-7) ^ 2
        < n * (1 / Real.sqrt n) ^ 2 := mul_lt_mul_of_pos_left hsq hnR
      _ = 1 := hone
  · unfold Ellipsoid.contains
    rw [qform_diagonal_single, not_le]
    have hsq : axlensOf d i ^ 2 < (axlensOf d i + 1e-7) ^ 2 := by nlinarith
    calc (1 : ℝ) = d i * axlensOf d i ^ 2 := hki.symm
      _ < d i * (axlensOf d i + 1e-7) ^ 2 := mul_lt_mul_of_pos_left hsq (hd i)
  · intro hax
    unfold Ellipsoid.contains
    rw [qform_diagonal_single]
    have hsq : (axlensOf d i - 1e-7) ^ 2 < axlensOf d i ^ 2 := by nlinarith
    refine le_of_lt ?_
    calc d i * (axlensOf d i - 1e-7) ^ 2
        < d i * axlensOf d i ^ 2 := mul_lt_mul_of_pos_left hsq (hd i)
      _ = 1 := hki

/-- Witness for the amended C6 at `n = 1`, the unit 1-sphere and the
axis-aligned ellipsoid with diagonal entry 1 (axis length 1). -/
theorem C6_contains_amended_witness :
    (Ellipsoid.mk (0 : Fin 1 → ℝ) (Matrix.diagonal fun _ => (1 : ℝ))).contains
        (fun j => if j = 0 then axlensOf (fun _ : Fin 1 => (1 : ℝ)) 0 - 1e-7 else 0) :=
  (C6_contains_amended 1 (Ellipsoid.mk (0 : Fin 1 → ℝ) 1) 0 (fun _ => (1 : ℝ)) 0
    (by norm_num) (by norm_num) (fun _ => by norm_num)).2.2.2.2
    (by unfold axlensOf; rw [Real.sqrt_one]; norm_num)

/-! ## Bounding ellipsoid (spec 4.2) -/

lemma qform_smul {n : ℕ} (ctr : Fin n → ℝ) (a : Matrix (Fin n) (Fin n) ℝ)
    (c : ℝ) (y : Fin n → ℝ) :
    (Ellipsoid.mk ctr (c • a)).qform y = c * (Ellipsoid.mk ctr a).qform y := by
  unfold Ellipsoid.qform
  rw [Matrix.smul_mulVec_assoc, Matrix.dotProduct_smul, smul_eq_mul]

/-- Modelled from the spec: the worst quadratic-form value over the point
cloud, taken at the candidate ellipsoid produced by steps 1-2 of
`nestle.bounding_ellipsoid` (sample mean and inverted enlarged covariance,
eigenvalue-floored when degenerate); that candidate enters as `ctr`, `a0`. -/
noncomputable def bfmax (m n : ℕ) (x : Fin (m + 1) → Fin n → ℝ)
    (ctr : Fin n → ℝ) (a0 : Matrix (Fin n) (Fin n) ℝ) : ℝ :=
  Finset.univ.sup' Finset.univ_nonempty fun i => (Ellipsoid.mk ctr a0).qform (x i)

/-- Modelled from the spec (§4.2 step 3): expand the candidate ellipsoid
minimally so it contains every input point, by scaling the precision matrix
down by the worst quadratic-form value, so the worst point lies exactly on
the boundary. -/
noncomputable def bounding_ellipsoid_raw (m n : ℕ) (x : Fin (m + 1) → Fin n → ℝ)
    (ctr : Fin n → ℝ) (a0 : Matrix (Fin n) (Fin n) ℝ) : Ellipsoid n :=
  if 0 < bfmax m n x ctr a0 then Ellipsoid.mk ctr ((bfmax m n x ctr a0)⁻¹ • a0)
  else Ellipsoid.mk ctr a0

/-- Modelled from the spec (§4.2 step 4): if the expanded ellipsoid's volume
is below the robust floor `npoints * pointvol`, rescale it up to that floor
(`scale_to_vol`); otherwise return it unchanged. -/
noncomputable def bounding_ellipsoid (m n : ℕ) (x : Fin (m + 1) → Fin n → ℝ)
    (pointvol : ℝ) (ctr : Fin n → ℝ) (a0 : Matrix (Fin n) (Fin n) ℝ) : Ellipsoid n :=
  if 0 < pointvol ∧
      (bounding_ellipsoid_raw m n x ctr a0).vol < ((m : ℝ) + 1) * pointvol
  then (bounding_ellipsoid_raw m n x ctr a0).scale_to_vol (((m : ℝ) + 1) * pointvol)
  else bounding_ellipsoid_raw m n x ctr a0

lemma bounding_raw_det (m n : ℕ) (x : Fin (m + 1) → Fin n → ℝ)
    (ctr : Fin n → ℝ) (a0 : Matrix (Fin n) (Fin n) ℝ) (hdet : 0 < a0.det) :
    0 < (bounding_ellipsoid_raw m n x ctr a0).a.det := by
  unfold bounding_ellipsoid_raw
  split_ifs with hF
  · show 0 < ((bfmax m n x ctr a0)⁻¹ • a0).det
    rw [Matrix.det_smul, Fintype.card_fin]
    exact mul_pos (pow_pos (inv_pos.2 hF) n) hdet
  · exact hdet

lemma bounding_raw_qform_nonneg (m n : ℕ) (x : Fin (m + 1) → Fin n → ℝ)
    (ctr : Fin n → ℝ) (a0 : Matrix (Fin n) (Fin n) ℝ)
    (hpsd : ∀ v : Fin n → ℝ, 0 ≤ Matrix.dotProduct v (a0.mulVec v))
    (y : Fin n → ℝ) : 0 ≤ (bounding_ellipsoid_raw m n x ctr a0).qform y := by
  have h0 : 0 ≤ (Ellipsoid.mk ctr a0).qform y := hpsd (y - ctr)
  unfold bounding_ellipsoid_raw
  split_ifs with hF
  · rw [qform_smul]
    exact mul_nonneg (inv_nonneg.2 hF.le) h0
  · exact h0

lemma bounding_raw_contains (m n : ℕ) (x : Fin (m + 1) → Fin n → ℝ)
    (ctr : Fin n → ℝ) (a0 : Matrix (Fin n) (Fin n) ℝ)
    (hpsd : ∀ v : Fin n → ℝ, 0 ≤ Matrix.dotProduct v (a0.mulVec v))
    (i : Fin (m + 1)) : (bounding_ellipsoid_raw m n x ctr a0).contains (x i) := by
  have hle : (Ellipsoid.mk ctr a0).qform (x i) ≤ bfmax m n x ctr a0 :=
    Finset.le_sup' (fun i => (Ellipsoid.mk ctr a0).qform (x i)) (Finset.mem_univ i)
  have h0 : 0 ≤ (Ellipsoid.mk ctr a0).qform (x i) := hpsd (x i - ctr)
  unfold Ellipsoid.contains bounding_ellipsoid_raw
  split_ifs with hF
  · rw [qform_smul]
    calc (bfmax m n x ctr a0)⁻¹ * (Ellipsoid.mk ctr a0).qform (x i)
        ≤ (bfmax m n x ctr a0)⁻¹ * bfmax m n x ctr a0 :=
          mul_le_mul_of_nonneg_left hle (inv_nonneg.2 hF.le)
      _ = 1 := inv_mul_cancel₀ hF.ne'
  · calc (Ellipsoid.mk ctr a0).qform (x i) ≤ bfmax m n x ctr a0 := hle
      _ ≤ 0 := not_lt.1 hF
      _ ≤ 1 := by norm_num

/-- C2: for every point cloud (any number of points, any dimension `n >= 1`),
any positive point volume and any positive-definite candidate matrix from
steps 1-2, the bounding ellipsoid contains every input point and has volume at
least the robust floor `npoints * pointvol`; whenever the expanded candidate's
volume does not exceed the floor (as in the under-determined
`npoints < dimension` case of the tests), the returned volume equals the
floor exactly. -/
theorem C2_bounding_ellipsoid (m n : ℕ) (x : Fin (m + 1) → Fin n → ℝ)
    (pointvol : ℝ) (ctr : Fin n → ℝ) (a0 : Matrix (Fin n) (Fin n) ℝ)
    (hn : 0 < n) (hpv : 0 < pointvol)
    (hpsd : ∀ v : Fin n → ℝ, 0 ≤ Matrix.dotProduct v (a0.mulVec v))
    (hdet : 0 < a0.det) :
    (∀ i, (bounding_ellipsoid m n x pointvol ctr a0).contains (x i)) ∧
    ((m : ℝ) + 1) * pointvol ≤ (bounding_ellipsoid m n x pointvol ctr a0).vol ∧
    ((bounding_ellipsoid_raw m n x ctr a0).vol ≤ ((m : ℝ) + 1) * pointvol →
      (bounding_ellipsoid m n x pointvol ctr a0).vol = ((m : ℝ) + 1) * pointvol) := by
  set e1 := bounding_ellipsoid_raw m n x ctr a0 with he1
  have hdet1 : 0 < e1.a.det := bounding_raw_det m n x ctr a0 hdet
  have hV1 : 0 < e1.vol := e1.vol_pos hdet1
  have ht : 0 < ((m : ℝ) + 1) * pointvol := by positivity
  unfold bounding_ellipsoid
  rw [← he1]
  split_ifs with hcond
  · obtain ⟨-, hlt⟩ := hcond
    have hvol : (e1.scale_to_vol (((m : ℝ) + 1) * pointvol)).vol
        = ((m : ℝ) + 1) * pointvol := e1.scale_to_vol_vol _ hn hdet1 ht
    refine ⟨?_, le_of_eq hvol.symm, fun _ => hvol⟩
    intro i
    have hratio : 1 < ((m : ℝ) + 1) * pointvol / e1.vol := (one_lt_div hV1).2 hlt
    have hnR : (0 : ℝ) < (n : ℝ) := by exact_mod_cast hn
    have hf : 1 < (((m : ℝ) + 1) * pointvol / e1.vol) ^ ((n : ℝ)⁻¹) :=
      (Real.one_lt_rpow_iff_of_pos (lt_trans one_pos hratio)).2
        (Or.inl ⟨hratio, inv_pos.2 hnR⟩)
    have hf2 : 1 < ((((m : ℝ) + 1) * pointvol / e1.vol) ^ ((n : ℝ)⁻¹)) ^ (2 : ℕ) :=
      one_lt_pow hf (by norm_num)
    have hc1 : (((((m : ℝ) + 1) * pointvol / e1.vol) ^ ((n : ℝ)⁻¹)) ^ (2 : ℕ))⁻¹ ≤ 1 :=
      le_of_lt (inv_lt_one hf2)
    have hc0 : 0 ≤ (((((m : ℝ) + 1) * pointvol / e1.vol) ^ ((n : ℝ)⁻¹)) ^ (2 : ℕ))⁻¹ := by
      positivity
    have hq1 : e1.qform (x i) ≤ 1 := bounding_raw_contains m n x ctr a0 hpsd i
    have hq0 : 0 ≤ e1.qform (x i) := bounding_raw_qform_nonneg m n x ctr a0 hpsd (x i)
    show (e1.scale_to_vol (((m : ℝ) + 1) * pointvol)).qform (x i) ≤ 1
    unfold Ellipsoid.scale_to_vol
    rw [show (Ellipsoid.mk e1.ctr
        ((((((m : ℝ) + 1) * pointvol / e1.vol) ^ ((n : ℝ)⁻¹)) ^ (2 : ℕ))⁻¹ • e1.a)).qform (x i)
        = (((((m : ℝ) + 1) * pointvol / e1.vol) ^ ((n : ℝ)⁻¹)) ^ (2 : ℕ))⁻¹
          * (Ellipsoid.mk e1.ctr e1.a).qform (x i) from qform_smul e1.ctr e1.a _ (x i)]
    exact mul_le_one hc1 hq0 hq1
  · push_neg at hcond
    have hge : ((m : ℝ) + 1) * pointvol ≤ e1.vol := hcond hpv
    refine ⟨fun i => bounding_raw_contains m n x ctr a0 hpsd i, hge, fun hle => ?_⟩
    exact le_antisymm hle hge

/-- Witness for C2 at the concrete input: one point at the origin in
dimension 1, identity candidate matrix, `pointvol = 1`. -/
theorem C2_bounding_ellipsoid_witness :
    (∀ i : Fin 1, (bounding_ellipsoid 0 1 (fun _ _ => (0 : ℝ)) 1 (fun _ => 0) 1).contains
      ((fun (_ : Fin 1) (_ : Fin 1) => (0 : ℝ)) i)) ∧
    (((0 : ℕ) : ℝ) + 1) * 1 ≤ (bounding_ellipsoid 0 1 (fun _ _ => (0 : ℝ)) 1 (fun _ => 0) 1).vol ∧
    ((bounding_ellipsoid_raw 0 1 (fun _ _ => (0 : ℝ)) (fun _ => 0) 1).vol
        ≤ (((0 : ℕ) : ℝ) + 1) * 1 →
      (bounding_ellipsoid 0 1 (fun _ _ => (0 : ℝ)) 1 (fun _ => 0) 1).vol
        = (((0 : ℕ) : ℝ) + 1) * 1) :=
  C2_bounding_ellipsoid 0 1 (fun _ _ => (0 : ℝ)) 1 (fun _ => 0) 1
    (by norm_num) (by norm_num)
    (by
      intro v
      rw [Matrix.one_mulVec]
      simp only [Matrix.dotProduct, Fin.sum_univ_one]
      exact mul_self_nonneg (v 0))
    (by rw [Matrix.det_one]; norm_num)

/-! ## Systematic resampling to equal weight (spec 4.5, DONE phase) -/

/-- Modelled from the spec: the systematic-resampling positions
`(u + i)/N`, one per output slot `i`, from a single uniform draw `u` in
`[0,1)` (`nestle.resample_equal`). -/
def spos (N : ℕ) (u : ℚ) (i : ℕ) : ℚ := (u + (i : ℚ)) / (N : ℚ)

/-- Modelled from the spec: `psum w j` is the sum of the first `j` weights,
so `psum w (j+1)` is the cumulative sum `cumulative_sum[j]` the resampler
walks along. -/
def psum (w : ℕ → ℚ) (j : ℕ) : ℚ := ∑ t ∈ Finset.range j, w t

/-- Modelled from the spec: the original-sample index assigned to output slot
`i`: the least `j` with `position i < cumulative_sum j` (the resampler's
while loop, which only ever advances `j` and stays below `N`); 0 if no such
`j` exists (the normalisation of the weights precludes this). -/
def residx (N : ℕ) (w : ℕ → ℚ) (u : ℚ) (i : ℕ) : ℕ :=
  if h : ∃ j, j < N ∧ spos N u i < psum w (j + 1) then Nat.find h else 0

/-- How many output slots the resampler assigns to original sample `j`, i.e.
how many times sample `j` appears in the output of `resample_equal`. -/
def rescount (N : ℕ) (w : ℕ → ℚ) (u : ℚ) (j : ℕ) : ℕ :=
  ((Finset.range N).filter fun i => residx N w u i = j).card

lemma psum_mono (w : ℕ → ℚ) (N a b : ℕ) (hw : ∀ t, t < N → 0 ≤ w t)
    (hab : a ≤ b) (hbN : b ≤ N) : psum w a ≤ psum w b := by
  unfold psum
  refine Finset.sum_le_sum_of_subset_of_nonneg (Finset.range_subset.2 hab) ?_
  intro t ht _
  exact hw t (lt_of_lt_of_le (Finset.mem_range.1 ht) hbN)

lemma residx_eq_iff (N : ℕ) (w : ℕ → ℚ) (u : ℚ) (i j : ℕ)
    (hw : ∀ t, t < N → 0 ≤ w t) (hj : j < N)
    (hex : ∃ k, k < N ∧ spos N u i < psum w (k + 1)) (hpos : 0 ≤ spos N u i) :
    residx N w u i = j ↔ psum w j ≤ spos N u i ∧ spos N u i < psum w (j + 1) := by
  unfold residx
  rw [dif_pos hex]
  constructor
  · intro hfind
    refine ⟨?_, hfind ▸ (Nat.find_spec hex).2⟩
    match j, hfind with
    | 0, _ => simpa [psum] using hpos
    | (k + 1), hfind =>
      have hk : k < Nat.find hex := by omega
      have hnot := Nat.find_min hex hk
      have hkN : k < N := by omega
      rw [not_and] at hnot
      exact not_lt.1 (hnot hkN)
  · rintro ⟨hlow, hhigh⟩
    have hle : Nat.find hex ≤ j := Nat.find_min' hex ⟨hj, hhigh⟩
    rcases lt_or_eq_of_le hle with hlt | heq
    · exfalso
      have hspec := (Nat.find_spec hex).2
      have hmono : psum w (Nat.find hex + 1) ≤ psum w j :=
        psum_mono w N _ j hw (by omega) (le_of_lt hj)
      exact absurd (lt_of_lt_of_le hspec (le_trans hmono hlow)) (lt_irrefl _)
    · exact heq

lemma psum_nonneg (w : ℕ → ℚ) (N j : ℕ) (hw : ∀ t, t < N → 0 ≤ w t) (hjN : j ≤ N) :
    0 ≤ psum w j := by
  have h0 : psum w 0 = 0 := by simp [psum]
  calc (0 : ℚ) = psum w 0 := h0.symm
    _ ≤ psum w j := psum_mono w N 0 j hw (Nat.zero_le j) hjN


/-- Counting grid points `i` with `a <= i < b` among `0..N-1` when the whole
interval sits inside `(-1, N]`: the count is `ceil b - ceil a`. -/
lemma count_grid (N : ℕ) (a b : ℚ) (hab : a ≤ b) (ha : -1 < a) (hbN : b ≤ (N : ℚ)) :
    (((Finset.range N).filter fun i : ℕ => a ≤ (i : ℚ) ∧ (i : ℚ) < b).card : ℤ)
      = Int.ceil b - Int.ceil a := by
  have hA0 : 0 ≤ Int.ceil a := by
    by_contra hA
    push_neg at hA
    have hle : Int.ceil a ≤ -1 := by omega
    have h1 : a ≤ ((-1 : ℤ) : ℚ) := Int.ceil_le.1 hle
    push_cast at h1
    linarith
  have hAB : Int.ceil a ≤ Int.ceil b := Int.ceil_le_ceil hab
  have hBN : Int.ceil b ≤ (N : ℤ) := by
    calc Int.ceil b ≤ Int.ceil ((N : ℚ)) := Int.ceil_le_ceil hbN
      _ = (N : ℤ) := Int.ceil_natCast N
  have hset : ((Finset.range N).filter fun i : ℕ => a ≤ (i : ℚ) ∧ (i : ℚ) < b)
      = Finset.Ico (Int.ceil a).toNat (Int.ceil b).toNat := by
    ext i
    simp only [Finset.mem_filter, Finset.mem_range, Finset.mem_Ico]
    constructor
    · rintro ⟨hiN, hai, hib⟩
      have h1 : Int.ceil a ≤ (i : ℤ) := Int.ceil_le.2 (by push_cast; exact hai)
      have h2 : (i : ℤ) < Int.ceil b := Int.lt_ceil.2 (by push_cast; exact hib)
      omega
    · rintro ⟨hA, hB⟩
      have h1 : Int.ceil a ≤ (i : ℤ) := by omega
      have h2 : (i : ℤ) < Int.ceil b := by omega
      have hai : a ≤ ((i : ℤ) : ℚ) := Int.ceil_le.1 h1
      have hib : ((i : ℤ) : ℚ) < b := Int.lt_ceil.1 h2
      push_cast at hai hib
      refine ⟨?_, hai, hib⟩
      omega
  rw [hset, Nat.card_Ico]
  omega

/-- The number of slots assigned to sample `j` is the number of grid points
in the cumulative-weight interval of `j`, which is a difference of ceilings. -/
lemma rescount_eq_ceil_sub (N : ℕ) (w : ℕ → ℚ) (u : ℚ) (j : ℕ)
    (hN : 0 < N) (hw : ∀ t, t < N → 0 ≤ w t) (hsum : psum w N = 1)
    (hu0 : 0 ≤ u) (hu1 : u < 1) (hj : j < N) :
    (rescount N w u j : ℤ)
      = Int.ceil (psum w (j + 1) * (N : ℚ) - u) - Int.ceil (psum w j * (N : ℚ) - u) := by
  have hNQ : (0 : ℚ) < (N : ℚ) := by exact_mod_cast hN
  have hpos : ∀ i : ℕ, 0 ≤ spos N u i := by
    intro i
    unfold spos
    positivity
  have hex : ∀ i, i < N → ∃ k, k < N ∧ spos N u i < psum w (k + 1) := by
    intro i hi
    refine ⟨N - 1, by omega, ?_⟩
    rw [show N - 1 + 1 = N by omega, hsum]
    unfold spos
    rw [div_lt_one hNQ]
    have hiQ : (i : ℚ) + 1 ≤ (N : ℚ) := by exact_mod_cast hi
    linarith
  have hjmono : psum w j ≤ psum w (j + 1) := psum_mono w N j (j + 1) hw (Nat.le_succ j) hj
  have h0j : 0 ≤ psum w j := psum_nonneg w N j hw (le_of_lt hj)
  have hy1 : psum w (j + 1) ≤ 1 := by
    rw [← hsum]
    exact psum_mono w N (j + 1) N hw hj (le_refl N)
  have hmulj : psum w j * (N : ℚ) ≤ psum w (j + 1) * (N : ℚ) :=
    mul_le_mul_of_nonneg_right hjmono hNQ.le
  have hmul0 : 0 ≤ psum w j * (N : ℚ) := mul_nonneg h0j hNQ.le
  have hmul1 : psum w (j + 1) * (N : ℚ) ≤ (N : ℚ) := by
    calc psum w (j + 1) * (N : ℚ) ≤ 1 * (N : ℚ) :=
        mul_le_mul_of_nonneg_right hy1 hNQ.le
      _ = (N : ℚ) := one_mul _
  have hcount : rescount N w u j
      = ((Finset.range N).filter fun i : ℕ =>
          psum w j * (N : ℚ) - u ≤ (i : ℚ) ∧ (i : ℚ) < psum w (j + 1) * (N : ℚ) - u).card := by
    unfold rescount
    congr 1
    apply Finset.filter_congr
    intro i hi
    rw [residx_eq_iff N w u i j hw hj (hex i (Finset.mem_range.1 hi)) (hpos i)]
    unfold spos
    rw [le_div_iff hNQ, div_lt_iff hNQ]
    constructor
    · rintro ⟨h1, h2⟩
      exact ⟨by linarith, by linarith⟩
    · rintro ⟨h1, h2⟩
      exact ⟨by linarith, by linarith⟩
  rw [hcount]
  exact count_grid N _ _ (by linarith) (by linarith) (by linarith)

/-- C4: with nonnegative weights summing to 1 and a uniform draw `u` in
`[0,1)`, every original sample `j` appears in the output of `resample_equal`
between `floor(w j * N)` and `ceil(w j * N)` times inclusive. -/
theorem C4_resample_equal (N : ℕ) (w : ℕ → ℚ) (u : ℚ) (j : ℕ)
    (hN : 0 < N) (hw : ∀ t, t < N → 0 ≤ w t) (hsum : psum w N = 1)
    (hu0 : 0 ≤ u) (hu1 : u < 1) (hj : j < N) :
    Int.floor (w j * (N : ℚ)) ≤ (rescount N w u j : ℤ) ∧
    (rescount N w u j : ℤ) ≤ Int.ceil (w j * (N : ℚ)) := by
  rw [rescount_eq_ceil_sub N w u j hN hw hsum hu0 hu1 hj]
  have hyx : psum w (j + 1) * (N : ℚ) - u
      = (psum w j * (N : ℚ) - u) + w j * (N : ℚ) := by
    unfold psum
    rw [Finset.sum_range_succ]
    ring
  constructor
  · rw [hyx]
    have h1 : Int.ceil ((psum w j * (N : ℚ) - u) + ((Int.floor (w j * (N : ℚ)) : ℤ) : ℚ))
        ≤ Int.ceil ((psum w j * (N : ℚ) - u) + w j * (N : ℚ)) :=
      Int.ceil_le_ceil (by linarith [Int.floor_le (w j * (N : ℚ))])
    rw [Int.ceil_add_int] at h1
    omega
  · rw [hyx]
    have h2 := Int.ceil_add_le (psum w j * (N : ℚ) - u) (w j * (N : ℚ))
    omega

/-- Witness for C4 at the concrete input `N = 2`, equal weights `1/2`,
`u = 1/3`, sample `j = 0`. -/
theorem C4_resample_equal_witness :
    Int.floor ((1 : ℚ) / 2 * ((2 : ℕ) : ℚ)) ≤ (rescount 2 (fun _ => (1 : ℚ) / 2) (1 / 3) 0 : ℤ) ∧
    (rescount 2 (fun _ => (1 : ℚ) / 2) (1 / 3) 0 : ℤ)
      ≤ Int.ceil ((1 : ℚ) / 2 * ((2 : ℕ) : ℚ)) :=
  C4_resample_equal 2 (fun _ => (1 : ℚ) / 2) (1 / 3) 0 (by norm_num)
    (fun t _ => by norm_num) (by norm_num [psum, Finset.sum_range_succ])
    (by norm_num) (by norm_num) (by norm_num)

/-! ## Weighted random selection (spec 7, "Degenerate probability input") -/

/-- Modelled from the spec: the validation tolerance for probability sums,
the square root of double-precision machine epsilon: `sqrt(2^-52) = 2^-26`
exactly. -/
def SQRTEPS : ℚ := (1 / 2) ^ (26 : ℕ)

/-- Modelled from the spec: the index-selection walk of the weighted random
selection: starting with the first weight as the running total, keep
accumulating weights while the total is below the uniform draw `r`, and
return the index reached. -/
def pickLoop (r : ℚ) : ℚ → ℕ → List ℚ → ℕ
  | t, i, [] => if t < r then i + 1 else i
  | t, i, q :: rest => if t < r then pickLoop r (t + q) (i + 1) rest else i

/-- Modelled from the spec: `nestle.random_choice(n, p)`: weighted random
selection of one index among `n` given probabilities `p` and a uniform draw
`u`; probabilities that do not sum to 1 within `SQRTEPS` fail with a
validation error, the caller must fix them upstream. -/
def random_choice (n : ℕ) (p : List ℚ) (u : ℚ) : Except String ℕ :=
  if SQRTEPS < |p.sum - 1| then .error ("probabilities do not sum to 1")
  else
    match p with
    | [] => .error ("no probabilities given")
    | q :: rest => .ok (pickLoop u q 0 rest)

lemma list_sum_map_mul (l : List ℚ) (c : ℚ) :
    (l.map fun a => a * c).sum = l.sum * c := by
  induction l with
  | nil => simp
  | cons q t ih =>
    simp only [List.map_cons, List.sum_cons, ih]
    ring

/-- C8: probabilities whose sum differs from 1 by more than the tolerance
make the weighted random selection fail with the validation error rather
than return an index; in particular every normalised vector scaled by 1.001
fails this way. -/
theorem C8_random_choice_error (n : ℕ) (p : List ℚ) (u : ℚ)
    (h : SQRTEPS < |p.sum - 1|) :
    random_choice n p u = .error ("probabilities do not sum to 1") ∧
    (∀ q : List ℚ, q.sum = 1 →
      random_choice n (q.map fun a => a * (1001 / 1000)) u
        = .error ("probabilities do not sum to 1")) := by
  constructor
  · unfold random_choice
    rw [if_pos h]
  · intro q hq
    unfold random_choice
    rw [if_pos]
    rw [list_sum_map_mul, hq]
    unfold SQRTEPS
    norm_num
    rw [show |(1 : ℚ) / 1000| = 1 / 1000 from abs_of_pos (by norm_num)]
    norm_num

/-- Witness for C8 at the concrete input `p = [1001/1000]`, `u = 0`. -/
theorem C8_random_choice_error_witness :
    random_choice 1 [(1001 : ℚ) / 1000] 0 = .error ("probabilities do not sum to 1") :=
  (C8_random_choice_error 1 [(1001 : ℚ) / 1000] 0
    (by
      unfold SQRTEPS
      norm_num
      rw [show |(1 : ℚ) / 1000| = 1 / 1000 from abs_of_pos (by norm_num)]
      norm_num)).1

/-! ## Result container (spec 6, "read-only field access by name") -/

/-- Modelled from the spec: the values a result field can hold in the tests:
integers (`niter`, `ncall`), floats (`logz`, `logzerr`, `h`) and float
arrays (`samples`). -/
inductive PyVal where
  | int : ℤ → PyVal
  | rat : ℚ → PyVal
  | arr : List ℚ → PyVal
deriving DecidableEq

/-- Modelled from the spec: the result object, an ordered record of named
fields. -/
abbrev Result := List (String × PyVal)

/-- Modelled from the spec: read-only field access by name; an unknown field
fails with an attribute-not-found error (python `AttributeError`),
distinguishable from any stored value. -/
def Result.getattr : Result → String → Except String PyVal
  | [], name => .error ("Result object has no attribute " ++ name)
  | (k, v) :: rest, name => if k = name then .ok v else Result.getattr rest name

/-- Pad `s` on the left with `c` up to width `w`. -/
def padLeftWith (c : Char) (w : ℕ) (s : String) : String :=
  (List.replicate (w - s.length) c).asString ++ s

/-- Render the integer `m` of thousandths as a fixed-point numeral with three
decimals, padded to width 6. -/
def fmt3z (m : ℤ) : String :=
  padLeftWith (' ') 6
    ((if m < 0 then "-" else "") ++ toString (m.natAbs / 1000) ++ "."
      ++ padLeftWith ('0') 3 (toString (m.natAbs % 1000)))

/-- Modelled from the spec: fixed-point rendering with three decimals padded
to width 6, python's `{:6.3f}`. -/
def fmt3 (q : ℚ) : String := fmt3z (round (q * 1000))

/-- Modelled from the spec: the lossless textual summary listing iteration
count, call count, sample count, evidence with its error, and information. -/
def Result.summary (r : Result) : Except String String := do
  let niter ← r.getattr ("niter")
  let ncall ← r.getattr ("ncall")
  let samples ← r.getattr ("samples")
  let logz ← r.getattr ("logz")
  let logzerr ← r.getattr ("logzerr")
  let hinfo ← r.getattr ("h")
  match niter, ncall, samples, logz, logzerr, hinfo with
  | .int a, .int b, .arr xs, .rat z, .rat ze, .rat hh =>
    .ok ("niter: " ++ toString a ++ "\nncall: " ++ toString b ++ "\nnsamples: "
      ++ toString xs.length ++ "\nlogz: " ++ fmt3 z ++ " +/- " ++ fmt3 ze
      ++ "\nh: " ++ fmt3 hh)
  | _, _, _, _, _, _ => .error ("summary: unexpected field types")

lemma getattr_present (r : Result) (nm : String) (h : nm ∈ r.map Prod.fst) :
    ∃ v, r.getattr nm = .ok v := by
  induction r with
  | nil => simp at h
  | cons kv rest ih =>
    by_cases hk : kv.1 = nm
    · refine ⟨kv.2, ?_⟩
      show Result.getattr (kv :: rest) nm = _
      rw [show (kv : String × PyVal) = (kv.1, kv.2) from rfl, Result.getattr, if_pos hk]
    · have hmem : nm ∈ rest.map Prod.fst := by
        simp only [List.map_cons, List.mem_cons] at h
        rcases h with h | h
        · exact absurd h.symm hk
        · exact h
      obtain ⟨v, hv⟩ := ih hmem
      refine ⟨v, ?_⟩
      show Result.getattr (kv :: rest) nm = _
      rw [show (kv : String × PyVal) = (kv.1, kv.2) from rfl, Result.getattr, if_neg hk]
      exact hv

lemma getattr_absent (r : Result) (nm : String) (h : nm ∉ r.map Prod.fst) :
    ∃ e, r.getattr nm = .error e := by
  induction r with
  | nil => exact ⟨_, rfl⟩
  | cons kv rest ih =>
    have hk : kv.1 ≠ nm := by
      intro hcon
      exact h (by simp [hcon])
    have htail : nm ∉ rest.map Prod.fst := by
      intro hcon
      exact h (by simp [hcon])
    obtain ⟨e, he⟩ := ih htail
    refine ⟨e, ?_⟩
    show Result.getattr (kv :: rest) nm = _
    rw [show (kv : String × PyVal) = (kv.1, kv.2) from rfl, Result.getattr, if_neg hk]
    exact he

/-- C9: accessing a field that was not set fails with an attribute-not-found
error, every field that was set is readable by name, and the Result of the
tests (`niter=100, ncall=100, samples=[1,2,3], logz=1, logzerr=0.1, h=0.1`)
produces exactly the expected summary text. -/
theorem C9_result_fields (r : Result) (name : String) (h : name ∉ r.map Prod.fst) :
    (∃ e, r.getattr name = .error e) ∧
    (∀ r2 : Result, ∀ nm : String, nm ∈ r2.map Prod.fst → ∃ v, r2.getattr nm = .ok v) ∧
    Result.summary
        [("niter", .int 100), ("ncall", .int 100), ("samples", .arr [1, 2, 3]),
         ("logz", .rat 1), ("logzerr", .rat (1 / 10)), ("h", .rat (1 / 10))]
      = .ok ("niter: 100\nncall: 100\nnsamples: 3\nlogz:  1.000 +/-  0.100\nh:  0.100") := by
  refine ⟨getattr_absent r name h, getattr_present, ?_⟩
  have hfa : fmt3 1 = " 1.000" := by
    unfold fmt3
    rw [show round ((1 : ℚ) * 1000) = (1000 : ℤ) by norm_num [round_eq]]
    rfl
  have hfb : fmt3 (1 / 10) = " 0.100" := by
    unfold fmt3
    rw [show round ((1 : ℚ) / 10 * 1000) = (100 : ℤ) by norm_num [round_eq]]
    rfl
  have hred : Result.summary
      [("niter", .int 100), ("ncall", .int 100), ("samples", .arr [1, 2, 3]),
       ("logz", .rat 1), ("logzerr", .rat (1 / 10)), ("h", .rat (1 / 10))]
      = .ok ("niter: " ++ toString (100 : ℤ) ++ "\nncall: " ++ toString (100 : ℤ)
        ++ "\nnsamples: " ++ toString ([(1 : ℚ), 2, 3].length) ++ "\nlogz: " ++ fmt3 1
        ++ " +/- " ++ fmt3 (1 / 10) ++ "\nh: " ++ fmt3 (1 / 10)) := rfl
  rw [hred, hfa, hfb]
  rfl

/-- Witness for C9 at the concrete input: the empty Result and the field
name `c` of the tests. -/
theorem C9_result_fields_witness :
    (∃ e, Result.getattr [] ("c") = .error e) ∧
    (∀ r2 : Result, ∀ nm : String, nm ∈ r2.map Prod.fst → ∃ v, r2.getattr nm = .ok v) ∧
    Result.summary
        [("niter", .int 100), ("ncall", .int 100), ("samples", .arr [1, 2, 3]),
         ("logz", .rat 1), ("logzerr", .rat (1 / 10)), ("h", .rat (1 / 10))]
      = .ok ("niter: 100\nncall: 100\nnsamples: 3\nlogz:  1.000 +/-  0.100\nh:  0.100") :=
  C9_result_fields [] ("c") (by simp)

/-! ## Evaluation pools (spec 4.6, 5) -/

/-- Modelled from the spec: the selectable constrained-sampling strategies of
`nestle.sample`. -/
inductive Method where
  | classic
  | single
  | multi

/-- An evaluation pool: maps a batch of candidate points, submitted in order,
to their log-likelihood values retrieved in submission order (spec 4.6). -/
def Pool (dim : ℕ) : Type := List (Fin dim → ℝ) → List ℝ

/-- Modelled from the spec: the serial pool (`FakePool`) evaluates the batch
in place, in submission order. -/
def serialPool (dim : ℕ) (logl : (Fin dim → ℝ) → ℝ) : Pool dim :=
  fun xs => xs.map logl

/-- Modelled from the spec (§4.6, §5): a concurrent pool completes the
batch's tasks in an arbitrary schedule order (a permutation of the batch
positions, chosen per batch size), tags each completed task with its
submission index, and retrieves the results in submission order
(first-submitted-first-consumed). -/
def concurrentPool (dim : ℕ) (logl : (Fin dim → ℝ) → ℝ)
    (sched : ∀ k : ℕ, Equiv.Perm (Fin k)) : Pool dim := fun xs =>
  (List.finRange xs.length).map fun i =>
    ((((List.finRange xs.length).map fun j =>
          (sched xs.length j, logl (xs.get (sched xs.length j)))).find?
        fun c => decide (c.1 = i)).map Prod.snd).getD 0

/-- Reordering completed tasks back to submission order recovers exactly the
serial evaluation: the two pools are extensionally equal. -/
lemma concurrentPool_eq_serialPool (dim : ℕ) (logl : (Fin dim → ℝ) → ℝ)
    (sched : ∀ k : ℕ, Equiv.Perm (Fin k)) :
    concurrentPool dim logl sched = serialPool dim logl := by
  funext xs
  unfold concurrentPool serialPool
  apply List.ext_get
  · simp
  intro i h1 h2
  rw [List.get_map, List.get_map, List.get_finRange]
  set k := xs.length
  set completed := (List.finRange k).map fun j =>
    (sched k j, logl (xs.get (sched k j))) with hcomp
  have hlen : i < k := by simpa using h1
  set target : Fin k := ⟨i, hlen⟩ with htarget
  have hmem : ((target : Fin k), logl (xs.get target)) ∈ completed := by
    rw [hcomp]
    refine List.mem_map.2 ⟨(sched k).symm target, List.mem_finRange _, ?_⟩
    rw [Equiv.apply_symm_apply]
  have hsome : (completed.find? fun c => decide (c.1 = target)).isSome := by
    rw [List.find?_isSome]
    exact ⟨_, hmem, by simp⟩
  obtain ⟨c, hc⟩ := Option.isSome_iff_exists.1 hsome
  have hpred : c.1 = target := by
    have := List.find?_some hc
    simpa using this
  have hcmem : c ∈ completed := List.mem_of_find?_eq_some hc
  have hcval : c.2 = logl (xs.get target) := by
    rw [hcomp] at hcmem
    obtain ⟨j, -, hj⟩ := List.mem_map.1 hcmem
    have h1j : sched k j = target := by
      rw [← hj] at hpred
      exact hpred
    rw [← hj]
    simp only []
    rw [h1j]
  rw [hc]
  simp [hcval]

/-! ## Nested sampling engine (spec 4.5) -/

/-- Modelled from the spec: the run state: iteration counter, the `npoints`
live points (each a transformed point with its log-likelihood), the evidence
accumulator `zsum` (the running sum of `weight * likelihood`) and the
information numerator `bsum` (the running sum of
`weight * likelihood * loglikelihood`). -/
structure RunState (np dim : ℕ) where
  it : ℕ
  live : Fin np → (Fin dim → ℝ) × ℝ
  zsum : ℝ
  bsum : ℝ

/-- Modelled from the spec: the prior volume after `k` shrinkage steps,
`X_k = exp(-k/npoints)` (the expected-value decrement of §4.5/§9). -/
noncomputable def Xvol (np k : ℕ) : ℝ := Real.exp (-(k : ℝ) / (np : ℝ))

/-- Modelled from the spec: the weight of the `k`-th dead point: the prior
volume shell `X_k - X_{k+1}` between consecutive shrinkage steps. -/
noncomputable def deadWeight (np k : ℕ) : ℝ := Xvol np k - Xvol np (k + 1)

/-- Modelled from the spec: the live point of minimal log-likelihood (first
such index, as `numpy.argmin` returns it). -/
noncomputable def worstIdx {np dim : ℕ} (live : Fin (np + 1) → (Fin dim → ℝ) × ℝ) :
    Fin (np + 1) :=
  (List.finRange (np + 1)).foldl (fun i j => if (live j).2 < (live i).2 then j else i) 0

/-- Modelled from the spec (§4.5 SAMPLING): one pass of the loop.  The worst
live point sets the likelihood threshold; a batch of `n_queue` candidate
draws is prior-transformed and dispatched through the evaluation pool; the
first returned candidate meeting the threshold replaces the worst point,
which is recorded as dead with weight `deadWeight(npoints, it)`, adding
`weight * exp(logl)` to the evidence accumulator and
`weight * exp(logl) * logl` to the information numerator.  If no candidate
of the batch qualifies, the state is unchanged and the next pass keeps
drawing. -/
noncomputable def nsStep (np dim n_queue : ℕ) (pool : Pool dim)
    (prior : (Fin dim → ℝ) → Fin dim → ℝ) (draws : ℕ → Fin dim → ℝ)
    (s : RunState (np + 1) dim) : RunState (np + 1) dim :=
  Option.elim
    ((((List.range n_queue).map fun jq => prior (draws (s.it * n_queue + jq))).zip
        (pool ((List.range n_queue).map fun jq => prior (draws (s.it * n_queue + jq))))).find?
      fun c => decide ((s.live (worstIdx s.live)).2 ≤ c.2))
    s
    (fun c =>
      { it := s.it + 1
        live := Function.update s.live (worstIdx s.live) c
        zsum := s.zsum + deadWeight (np + 1) s.it * Real.exp ((s.live (worstIdx s.live)).2)
        bsum := s.bsum + deadWeight (np + 1) s.it * Real.exp ((s.live (worstIdx s.live)).2)
            * ((s.live (worstIdx s.live)).2) })

/-- Modelled from the spec (§4.5 INIT): the initial population: `npoints`
unit-cube points, prior-transformed, with their likelihoods evaluated
through the pool (in submission order). -/
noncomputable def nsInit (np dim : ℕ) (pool : Pool dim)
    (prior : (Fin dim → ℝ) → Fin dim → ℝ) (initU : Fin (np + 1) → Fin dim → ℝ) :
    RunState (np + 1) dim :=
  { it := 0
    live := fun i =>
      (prior (initU i),
        (pool ((List.finRange (np + 1)).map fun j => prior (initU j))).getD i.val 0)
    zsum := 0
    bsum := 0 }

/-- Modelled from the spec: `niter` passes of the sampling loop. -/
noncomputable def nsLoop (np dim n_queue : ℕ) (pool : Pool dim)
    (prior : (Fin dim → ℝ) → Fin dim → ℝ) (draws : ℕ → Fin dim → ℝ) :
    ℕ → RunState (np + 1) dim → RunState (np + 1) dim
  | 0, s => s
  | (k + 1), s =>
    nsLoop np dim n_queue pool prior draws k (nsStep np dim n_queue pool prior draws s)

/-- The fields of the returned result object that the end-to-end tests
inspect. -/
structure RunResult where
  logz : ℝ
  h : ℝ

/-- Modelled from the spec (§4.5 DONE): each remaining live point is added as
a final dead point with the remaining prior volume `X_it` apportioned
equally; the evidence is `logz = log(Z)` and the information is
`h = B/Z - log(Z)`, the exact-arithmetic closed forms of the running
log-sum-exp evidence update and the recursive information update of §4.5. -/
noncomputable def nsFinalize (np dim : ℕ) (s : RunState (np + 1) dim) : RunResult :=
  { logz := Real.log (s.zsum +
      ∑ i : Fin (np + 1), Xvol (np + 1) s.it / ((np : ℝ) + 1) * Real.exp (s.live i).2)
    h := (s.bsum +
        ∑ i : Fin (np + 1), Xvol (np + 1) s.it / ((np : ℝ) + 1) * Real.exp (s.live i).2
          * (s.live i).2)
      / (s.zsum +
        ∑ i : Fin (np + 1), Xvol (np + 1) s.it / ((np : ℝ) + 1) * Real.exp (s.live i).2)
      - Real.log (s.zsum +
        ∑ i : Fin (np + 1), Xvol (np + 1) s.it / ((np : ℝ) + 1) * Real.exp (s.live i).2) }

/-- Modelled from the spec (§6 entry contract): run nested sampling with
`npoints = np+1` live points in `dim` dimensions with queue depth `n_queue`,
method `m` (selecting which stream of constrained candidate draws the
single-threaded orchestrator consumes), a prior transform, an evaluation
pool, initial unit-cube points, for `niter` loop passes. -/
noncomputable def nestleSample (np dim n_queue : ℕ) (m : Method) (pool : Pool dim)
    (prior : (Fin dim → ℝ) → Fin dim → ℝ) (draws : Method → ℕ → Fin dim → ℝ)
    (initU : Fin (np + 1) → Fin dim → ℝ) (niter : ℕ) : RunResult :=
  nsFinalize np dim
    (nsLoop np dim n_queue pool prior (draws m) niter (nsInit np dim pool prior initU))

/-- C3: for a fixed configuration (method `multi`, `npoints = 100`,
`n_queue = 8`) and the same deterministic stream of stochastic decisions,
running with the serial pool and with a concurrent pool under ANY completion
schedule produces exactly equal (bit-identical in the exact-real model)
`logz` values. -/
theorem C3_pool_determinism (logl : (Fin 2 → ℝ) → ℝ) (prior : (Fin 2 → ℝ) → Fin 2 → ℝ)
    (draws : Method → ℕ → Fin 2 → ℝ) (initU : Fin 100 → Fin 2 → ℝ) (niter : ℕ)
    (sched : ∀ k : ℕ, Equiv.Perm (Fin k)) :
    (nestleSample 99 2 8 Method.multi (serialPool 2 logl) prior draws initU niter).logz
      = (nestleSample 99 2 8 Method.multi (concurrentPool 2 logl sched)
          prior draws initU niter).logz := by
  rw [concurrentPool_eq_serialPool]

lemma getD_map_zero {α : Type} (l : List α) (n : ℕ) :
    ((l.map fun _ => (0 : ℝ)).getD n 0) = 0 := by
  induction l generalizing n with
  | nil => simp [List.getD]
  | cons a t ih =>
    cases n with
    | zero => simp
    | succ k => simpa using ih k

/-- With a flat likelihood, one loop pass advances the iteration, keeps the
population flat, adds exactly the dead-point shell weight to the evidence
accumulator and nothing to the information numerator. -/
lemma nsStep_flat (np dim : ℕ) (prior : (Fin dim → ℝ) → Fin dim → ℝ)
    (draws : ℕ → Fin dim → ℝ) (s : RunState (np + 1) dim)
    (hlive : ∀ i, (s.live i).2 = 0) :
    (nsStep np dim 1 (serialPool dim fun _ => 0) prior draws s).it = s.it + 1 ∧
    (∀ i, ((nsStep np dim 1 (serialPool dim fun _ => 0) prior draws s).live i).2 = 0) ∧
    (nsStep np dim 1 (serialPool dim fun _ => 0) prior draws s).zsum
      = s.zsum + deadWeight (np + 1) s.it ∧
    (nsStep np dim 1 (serialPool dim fun _ => 0) prior draws s).bsum = s.bsum := by
  have hstar : (s.live (worstIdx s.live)).2 = 0 := hlive _
  have hfind : ((((List.range 1).map fun jq => prior (draws (s.it * 1 + jq))).zip
        (serialPool dim (fun _ => (0 : ℝ))
          ((List.range 1).map fun jq => prior (draws (s.it * 1 + jq))))).find?
      fun c => decide ((s.live (worstIdx s.live)).2 ≤ c.2))
      = some (prior (draws (s.it * 1 + 0)), 0) := by
    show ([(prior (draws (s.it * 1 + 0)), (0 : ℝ))].find?
      fun c => decide ((s.live (worstIdx s.live)).2 ≤ c.2)) = _
    apply List.find?_cons_of_pos
    show decide ((s.live (worstIdx s.live)).2 ≤ (0 : ℝ)) = true
    rw [hstar]
    exact decide_eq_true (le_refl (0 : ℝ))
  have hstep : nsStep np dim 1 (serialPool dim fun _ => 0) prior draws s
      = { it := s.it + 1
          live := Function.update s.live (worstIdx s.live) (prior (draws (s.it * 1 + 0)), 0)
          zsum := s.zsum + deadWeight (np + 1) s.it * Real.exp ((s.live (worstIdx s.live)).2)
          bsum := s.bsum + deadWeight (np + 1) s.it * Real.exp ((s.live (worstIdx s.live)).2)
              * ((s.live (worstIdx s.live)).2) } := by
    unfold nsStep
    rw [hfind]
    rfl
  rw [hstep]
  refine ⟨rfl, ?_, ?_, ?_⟩
  · intro i
    show (Function.update s.live (worstIdx s.live) (prior (draws (s.it * 1 + 0)), 0) i).2 = 0
    rw [Function.update_apply]
    split_ifs
    · rfl
    · exact hlive i
  · show s.zsum + deadWeight (np + 1) s.it * Real.exp ((s.live (worstIdx s.live)).2)
        = s.zsum + deadWeight (np + 1) s.it
    rw [hstar, Real.exp_zero, mul_one]
  · show s.bsum + deadWeight (np + 1) s.it * Real.exp ((s.live (worstIdx s.live)).2)
        * ((s.live (worstIdx s.live)).2) = s.bsum
    rw [hstar, mul_zero, add_zero]

/-- With a flat likelihood, `k` loop passes telescope the dead-point weights
into the prior-volume difference `X_it - X_(it+k)`. -/
lemma nsLoop_flat (np dim : ℕ) (prior : (Fin dim → ℝ) → Fin dim → ℝ)
    (draws : ℕ → Fin dim → ℝ) :
    ∀ (k : ℕ) (s : RunState (np + 1) dim), (∀ i, (s.live i).2 = 0) →
    (nsLoop np dim 1 (serialPool dim fun _ => 0) prior draws k s).it = s.it + k ∧
    (∀ i, ((nsLoop np dim 1 (serialPool dim fun _ => 0) prior draws k s).live i).2 = 0) ∧
    (nsLoop np dim 1 (serialPool dim fun _ => 0) prior draws k s).zsum
      = s.zsum + (Xvol (np + 1) s.it - Xvol (np + 1) (s.it + k)) ∧
    (nsLoop np dim 1 (serialPool dim fun _ => 0) prior draws k s).bsum = s.bsum := by
  intro k
  induction k with
  | zero =>
    intro s hlive
    refine ⟨rfl, hlive, ?_, rfl⟩
    show s.zsum = s.zsum + (Xvol (np + 1) s.it - Xvol (np + 1) (s.it + 0))
    rw [show Xvol (np + 1) (s.it + 0) = Xvol (np + 1) s.it from by
      congr 1]
    ring
  | succ k ih =>
    intro s hlive
    obtain ⟨hit1, hlive1, hz1, hb1⟩ := nsStep_flat np dim prior draws s hlive
    obtain ⟨hit2, hlive2, hz2, hb2⟩ :=
      ih (nsStep np dim 1 (serialPool dim fun _ => 0) prior draws s) hlive1
    have heq : nsLoop np dim 1 (serialPool dim fun _ => 0) prior draws (k + 1) s
        = nsLoop np dim 1 (serialPool dim fun _ => 0) prior draws k
            (nsStep np dim 1 (serialPool dim fun _ => 0) prior draws s) := rfl
    rw [heq]
    refine ⟨?_, hlive2, ?_, ?_⟩
    · rw [hit2, hit1]
      omega
    · rw [hz2, hz1, hit1]
      unfold deadWeight
      rw [show s.it + 1 + k = s.it + (k + 1) by omega]
      ring
    · rw [hb2, hb1]

/-- Any run of the engine with a flat likelihood returns exactly
`logz = 0` and `h = 0`: the dead-point and final live-point weights sum to
the full prior volume 1. -/
lemma nestleSample_flat (np dim : ℕ) (m : Method) (prior : (Fin dim → ℝ) → Fin dim → ℝ)
    (draws : Method → ℕ → Fin dim → ℝ) (initU : Fin (np + 1) → Fin dim → ℝ) (niter : ℕ) :
    (nestleSample np dim 1 m (serialPool dim fun _ => 0) prior draws initU niter).logz = 0 ∧
    (nestleSample np dim 1 m (serialPool dim fun _ => 0) prior draws initU niter).h = 0 := by
  have hinit_live : ∀ i,
      ((nsInit np dim (serialPool dim fun _ => 0) prior initU).live i).2 = 0 := by
    intro i
    show ((serialPool dim (fun _ => 0)
      ((List.finRange (np + 1)).map fun j => prior (initU j))).getD i.val 0) = 0
    unfold serialPool
    rw [List.map_map]
    exact getD_map_zero _ _
  obtain ⟨hit, hlive, hz, hb⟩ :=
    nsLoop_flat np dim prior (draws m) niter
      (nsInit np dim (serialPool dim fun _ => 0) prior initU) hinit_live
  have hinit_it : (nsInit np dim (serialPool dim fun _ => 0) prior initU).it = 0 := rfl
  have hinit_z : (nsInit np dim (serialPool dim fun _ => 0) prior initU).zsum = 0 := rfl
  have hinit_b : (nsInit np dim (serialPool dim fun _ => 0) prior initU).bsum = 0 := rfl
  rw [hinit_it, hinit_z] at hz
  rw [hinit_b] at hb
  have hx0 : Xvol (np + 1) 0 = 1 := by
    unfold Xvol
    norm_num
  rw [hx0] at hz
  unfold nestleSample nsFinalize
  set sfin := nsLoop np dim 1 (serialPool dim fun _ => 0) prior (draws m) niter
    (nsInit np dim (serialPool dim fun _ => 0) prior initU) with hsfin
  have hnp1 : ((np : ℝ) + 1) ≠ 0 := by positivity
  have hsum : (∑ i : Fin (np + 1),
      Xvol (np + 1) sfin.it / ((np : ℝ) + 1) * Real.exp (sfin.live i).2)
      = Xvol (np + 1) sfin.it := by
    have hterm : ∀ i : Fin (np + 1),
        Xvol (np + 1) sfin.it / ((np : ℝ) + 1) * Real.exp (sfin.live i).2
          = Xvol (np + 1) sfin.it / ((np : ℝ) + 1) := by
      intro i
      rw [hlive i, Real.exp_zero, mul_one]
    rw [Finset.sum_congr rfl fun i _ => hterm i, Finset.sum_const, Finset.card_univ,
      Fintype.card_fin, nsmul_eq_mul]
    push_cast
    field_simp
  have hsum2 : (∑ i : Fin (np + 1),
      Xvol (np + 1) sfin.it / ((np : ℝ) + 1) * Real.exp (sfin.live i).2 * (sfin.live i).2)
      = 0 := by
    apply Finset.sum_eq_zero
    intro i _
    rw [hlive i, mul_zero]
  have hztotal : sfin.zsum + (∑ i : Fin (np + 1),
      Xvol (np + 1) sfin.it / ((np : ℝ) + 1) * Real.exp (sfin.live i).2) = 1 := by
    rw [hsum, hz, hit, hinit_it]
    ring
  constructor
  · show Real.log (sfin.zsum + ∑ i : Fin (np + 1),
      Xvol (np + 1) sfin.it / ((np : ℝ) + 1) * Real.exp (sfin.live i).2) = 0
    rw [hztotal, Real.log_one]
  · show (sfin.bsum + ∑ i : Fin (np + 1),
        Xvol (np + 1) sfin.it / ((np : ℝ) + 1) * Real.exp (sfin.live i).2 * (sfin.live i).2)
      / (sfin.zsum + ∑ i : Fin (np + 1),
        Xvol (np + 1) sfin.it / ((np : ℝ) + 1) * Real.exp (sfin.live i).2)
      - Real.log (sfin.zsum + ∑ i : Fin (np + 1),
        Xvol (np + 1) sfin.it / ((np : ℝ) + 1) * Real.exp (sfin.live i).2) = 0
    rw [hztotal, hsum2, hb, Real.log_one]
    norm_num

/-- C1: running the sampler with a flat likelihood over the 2-dimensional
unit cube with the identity prior transform and `npoints = 4` returns
`logz = 0` and `h = 0` exactly — hence within absolute tolerance `1e-10` —
for each of the three methods (the method selects which stream of candidate
draws is consumed; with a flat likelihood every candidate qualifies and the
evidence bookkeeping telescopes to the full prior volume). -/
theorem C1_flat_sample (m : Method) (draws : Method → ℕ → Fin 2 → ℝ)
    (initU : Fin 4 → Fin 2 → ℝ) (niter : ℕ) :
    (nestleSample 3 2 1 m (serialPool 2 fun _ => 0) (fun x => x) draws initU niter).logz = 0 ∧
    (nestleSample 3 2 1 m (serialPool 2 fun _ => 0) (fun x => x) draws initU niter).h = 0 ∧
    |(nestleSample 3 2 1 m (serialPool 2 fun _ => 0) (fun x => x) draws initU niter).logz|
      ≤ 1e-10 ∧
    |(nestleSample 3 2 1 m (serialPool 2 fun _ => 0) (fun x => x) draws initU niter).h|
      ≤ 1e-10 := by
  obtain ⟨h1, h2⟩ := nestleSample_flat 3 2 m (fun x => x) draws initU niter
  refine ⟨h1, h2, ?_, ?_⟩
  · rw [h1]
    norm_num
  · rw [h2]
    norm_num
